import Mathlib

set_option maxHeartbeats 1000000

/-!
Verification development for the chain-state query engine of
`src/rpc/blockchain.cpp`: the UTXO set digester (`ApplyStats`,
`GetUTXOStats`), the chain-tip resolver (`getchaintips`,
`CompareBlocksByHeight`), the block-range aggregator (`validaterange`,
`getblockindexstats`, `getfeeinfo`) and the tip-wait logic
(`waitforblockheight`).  Hashes and identifiers are modelled as naturals,
amounts as integers, and the digest hash input as the explicit list of
values written to the hash writer.
-/

/-! ## UTXO set digester -/

/-- An unspent output record (`Coin`): creation height, coinbase and
coinstake flags, and the output itself (amount and script bytes). -/
structure Coin where
  nHeight : Nat
  fCoinBase : Bool
  fCoinStake : Bool
  nValue : Int
  scriptPubKey : List Nat
deriving DecidableEq

/-- Aggregate statistics about the unspent output set (`CCoinsStats`). -/
structure CCoinsStats where
  nHeight : Nat
  hashBlock : Nat
  nTransactions : Nat
  nTransactionOutputs : Nat
  nTotalAmount : Int
deriving DecidableEq

/-- One value written into the digest hash stream (`CHashWriter`): a
256-bit hash, a VARINT-framed natural, serialized script bytes, or a
VARINT-framed amount. -/
inductive HashTok where
  | u256 (h : Nat)
  | varint (n : Nat)
  | script (s : List Nat)
  | varamt (v : Int)
deriving DecidableEq

/-- The combined header value hashed once per group:
`height*4 + (coinbase ? 2 : 0) + (coinstake ? 1 : 0)`. -/
def coinHeader (c : Coin) : Nat :=
  c.nHeight * 4 + (if c.fCoinBase then 2 else 0) + (if c.fCoinStake then 1 else 0)

/-- First coin of a group buffer (the source reads `outputs.begin()->second`
of a non-empty map; the `[]` case is never reached). -/
def headCoin : List (Nat × Coin) → Coin
  | [] => ⟨0, false, false, 0, []⟩
  | (_, c) :: _ => c

/-- The three hash-stream values written for one output of a group:
`VARINT(outputIndex + 1)`, the script bytes, `VARINT(amount)`. -/
def outTokens (r : Nat × Coin) : List HashTok :=
  [HashTok.varint (r.1 + 1), HashTok.script r.2.scriptPubKey,
    HashTok.varamt r.2.nValue]

/-- Per-output accumulation step of `ApplyStats`: bump the output counter,
add the amount, and append the output's three hash-stream values. -/
def applyStatsStep (p : CCoinsStats × List HashTok) (o : Nat × Coin) :
    CCoinsStats × List HashTok :=
  ({ p.1 with
      nTransactionOutputs := p.1.nTransactionOutputs + 1,
      nTotalAmount := p.1.nTotalAmount + o.2.nValue },
   p.2 ++ outTokens o)

/-- `ApplyStats` (blockchain.cpp:669-684): flush one transaction-id group
into the running hash stream and the aggregate counters.  `outputs` is the
group's key-sorted map of outputs; the source asserts it is non-empty. -/
def ApplyStats (stats : CCoinsStats) (ss : List HashTok) (hash : Nat)
    (outputs : List (Nat × Coin)) : CCoinsStats × List HashTok :=
  match outputs with
  | [] => (stats, ss)
  | (_, coin) :: _ =>
    let ss := ss ++ [HashTok.u256 hash, HashTok.varint (coinHeader coin)]
    let stats := { stats with nTransactions := stats.nTransactions + 1 }
    let p := outputs.foldl applyStatsStep (stats, ss)
    (p.1, p.2 ++ [HashTok.varint 0])

/-- The full hash-stream block one group contributes, as the specification
frames it: transaction id, combined header value of the first record, then
per record `outputIndex+1` / script / amount, then the sentinel `0`. -/
def groupStream (g : Nat × List (Nat × Coin)) : List HashTok :=
  HashTok.u256 g.1 :: HashTok.varint (coinHeader (headCoin g.2)) ::
    ((g.2.map outTokens).flatten ++ [HashTok.varint 0])

theorem applyStats_foldl_snd (outs : List (Nat × Coin)) :
    ∀ (stats : CCoinsStats) (ss : List HashTok),
      (outs.foldl applyStatsStep (stats, ss)).2 = ss ++ (outs.map outTokens).flatten := by
  induction outs with
  | nil => intro stats ss; simp
  | cons o t ih =>
    intro stats ss
    simp only [List.foldl_cons, List.map_cons, List.flatten]
    rw [ih]
    simp [applyStatsStep, List.append_assoc]

/-- The hash-stream component of `ApplyStats` on a non-empty group is the
previous stream followed by that group's framed block. -/
theorem applyStats_stream (stats : CCoinsStats) (ss : List HashTok)
    (hash : Nat) (outputs : List (Nat × Coin)) (h : outputs ≠ []) :
    (ApplyStats stats ss hash outputs).2 = ss ++ groupStream (hash, outputs) := by
  match outputs, h with
  | (k, c) :: t, _ =>
    simp only [ApplyStats, groupStream, headCoin]
    rw [applyStats_foldl_snd]
    simp [List.append_assoc]

/-- Claim C1: flushing a non-empty key-sorted group of UTXO records updates
the digest hash state in exactly this order: the transaction id, then the
combined header value `height*4 + 2*isCoinbase + isCoinstake` taken from the
group's first record, then for each record in key order `outputIndex+1`
followed by the script bytes followed by the amount, and finally the
terminating sentinel value `0`. -/
theorem C1_applyStats_flush_order (stats : CCoinsStats) (ss : List HashTok)
    (hash : Nat) (k : Nat) (c : Coin) (rest : List (Nat × Coin))
    (hsorted : ((k, c) :: rest).Sorted (fun a b => a.1 < b.1)) :
    (ApplyStats stats ss hash ((k, c) :: rest)).2 =
      ss ++ (HashTok.u256 hash ::
        HashTok.varint (c.nHeight * 4 + (if c.fCoinBase then 2 else 0) +
          (if c.fCoinStake then 1 else 0)) ::
        ((((k, c) :: rest).map outTokens).flatten ++ [HashTok.varint 0])) := by
  rw [applyStats_stream stats ss hash ((k, c) :: rest) (by simp)]
  rfl

/-- Witness for C1 at a concrete two-output group. -/
theorem C1_applyStats_flush_order_witness :
    (ApplyStats ⟨0, 0, 0, 0, 0⟩ [] 7 ((0, ⟨3, true, false, 50, [1, 2]⟩) ::
        [(1, ⟨3, true, false, 60, [9]⟩)])).2 =
      [] ++ (HashTok.u256 7 ::
        HashTok.varint (3 * 4 + (if true then 2 else 0) + (if false then 1 else 0)) ::
        ((((0, (⟨3, true, false, 50, [1, 2]⟩ : Coin)) ::
            [(1, ⟨3, true, false, 60, [9]⟩)]).map outTokens).flatten ++
          [HashTok.varint 0])) :=
  C1_applyStats_flush_order ⟨0, 0, 0, 0, 0⟩ [] 7 0 ⟨3, true, false, 50, [1, 2]⟩
    [(1, ⟨3, true, false, 60, [9]⟩)] (by simp)

/-- Sorted-map insertion with overwrite on an equal key: the model of the
`std::map<uint32_t, Coin>` update `outputs[key.n] = coin`. -/
def insertMap (k : Nat) (c : Coin) : List (Nat × Coin) → List (Nat × Coin)
  | [] => [(k, c)]
  | (k1, c1) :: t =>
    if k < k1 then (k, c) :: (k1, c1) :: t
    else if k = k1 then (k, c) :: t
    else (k1, c1) :: insertMap k c t

/-- The group map built by inserting each record of a cursor run in order. -/
def mapOf (recs : List (Nat × Coin)) : List (Nat × Coin) :=
  recs.foldl (fun m r => insertMap r.1 r.2 m) []

/-- Loop state of `GetUTXOStats`: previous transaction id, pending group
buffer, running statistics and hash stream. -/
structure DigestState where
  prevkey : Nat
  outputs : List (Nat × Coin)
  stats : CCoinsStats
  ss : List HashTok

/-- One iteration of the `GetUTXOStats` cursor loop (blockchain.cpp:700-715):
flush the buffered group when the transaction id changes, then insert the
record into the group buffer under its output index. -/
def digestStep (st : DigestState) (e : (Nat × Nat) × Coin) : DigestState :=
  let txid := e.1.1
  let st1 :=
    if st.outputs ≠ [] ∧ txid ≠ st.prevkey then
      let p := ApplyStats st.stats st.ss st.prevkey st.outputs
      { st with stats := p.1, ss := p.2, outputs := [] }
    else st
  { st1 with prevkey := txid, outputs := insertMap e.1.2 e.2 st1.outputs }

/-- Final flush of `GetUTXOStats` (blockchain.cpp:716-718). -/
def finishDigest (st : DigestState) : CCoinsStats × List HashTok :=
  if st.outputs ≠ [] then ApplyStats st.stats st.ss st.prevkey st.outputs
  else (st.stats, st.ss)

/-- `GetUTXOStats` (blockchain.cpp:687-722) over a decoded cursor: the
cursor yields `((txid, outputIndex), coin)` entries; the best block hash is
hashed first, a group is flushed whenever the transaction id changes, and a
final non-empty buffer is flushed after the loop.  `bestHeight` is the
height looked up for the cursor's best block. -/
def GetUTXOStats (bestBlock : Nat) (bestHeight : Nat)
    (entries : List ((Nat × Nat) × Coin)) : CCoinsStats × List HashTok :=
  let st0 : DigestState :=
    ⟨0, [], ⟨bestHeight, bestBlock, 0, 0, 0⟩, [HashTok.u256 bestBlock]⟩
  finishDigest (entries.foldl digestStep st0)

/-- Flushing a list of already-mapped groups in cursor order. -/
def flushGroups (acc : CCoinsStats × List HashTok)
    (gs : List (Nat × List (Nat × Coin))) : CCoinsStats × List HashTok :=
  gs.foldl (fun a g => ApplyStats a.1 a.2 g.1 g.2) acc

/-- Entries a cursor yields for one group: each record tagged with the
group's transaction id. -/
def tagEntries (t : Nat) (recs : List (Nat × Coin)) : List ((Nat × Nat) × Coin) :=
  recs.map (fun r => ((t, r.1), r.2))

/-- Entries of a whole cursor given by contiguous groups. -/
def flattenEntries (gs : List (Nat × List (Nat × Coin))) : List ((Nat × Nat) × Coin) :=
  (gs.map (fun g => tagEntries g.1 g.2)).flatten

/-- A group with its records replaced by the key-sorted map the digester
builds from them. -/
def canonGroup (g : Nat × List (Nat × Coin)) : Nat × List (Nat × Coin) :=
  (g.1, mapOf g.2)

theorem insertMap_ne_nil (k : Nat) (c : Coin) (m : List (Nat × Coin)) :
    insertMap k c m ≠ [] := by
  match m with
  | [] => simp [insertMap]
  | (k1, c1) :: t =>
    simp only [insertMap]
    split
    · simp
    · split <;> simp

theorem foldl_insertMap_ne_nil (recs : List (Nat × Coin)) :
    ∀ m, m ≠ [] → recs.foldl (fun m r => insertMap r.1 r.2 m) m ≠ [] := by
  induction recs with
  | nil => intro m hm; simpa using hm
  | cons r t ih =>
    intro m _
    simp only [List.foldl_cons]
    exact ih _ (insertMap_ne_nil _ _ _)

theorem mapOf_ne_nil (recs : List (Nat × Coin)) (h : recs ≠ []) :
    mapOf recs ≠ [] := by
  match recs, h with
  | r :: t, _ =>
    simp only [mapOf, List.foldl_cons]
    exact foldl_insertMap_ne_nil t _ (insertMap_ne_nil _ _ _)

theorem foldl_digestStep_same (recs : List (Nat × Coin)) :
    ∀ (t : Nat) (buf : List (Nat × Coin)) (stats : CCoinsStats)
      (ss : List HashTok), buf ≠ [] →
      (tagEntries t recs).foldl digestStep ⟨t, buf, stats, ss⟩ =
        ⟨t, recs.foldl (fun m r => insertMap r.1 r.2 m) buf, stats, ss⟩ := by
  induction recs with
  | nil => intro t buf stats ss _; rfl
  | cons r rest ih =>
    intro t buf stats ss hbuf
    have hstep : digestStep ⟨t, buf, stats, ss⟩ ((t, r.1), r.2) =
        ⟨t, insertMap r.1 r.2 buf, stats, ss⟩ := by
      simp [digestStep]
    simp only [tagEntries, List.map_cons, List.foldl_cons]
    rw [hstep]
    have := ih t (insertMap r.1 r.2 buf) stats ss (insertMap_ne_nil _ _ _)
    simpa [tagEntries] using this

theorem foldl_digestStep_group (t : Nat) (recs : List (Nat × Coin))
    (hne : recs ≠ []) (pk : Nat) (hpk : t ≠ pk) (buf : List (Nat × Coin))
    (hbuf : buf ≠ []) (stats : CCoinsStats) (ss : List HashTok) :
    (tagEntries t recs).foldl digestStep ⟨pk, buf, stats, ss⟩ =
      ⟨t, mapOf recs, (ApplyStats stats ss pk buf).1,
        (ApplyStats stats ss pk buf).2⟩ := by
  match recs, hne with
  | r :: rest, _ =>
    have hstep : digestStep ⟨pk, buf, stats, ss⟩ ((t, r.1), r.2) =
        ⟨t, insertMap r.1 r.2 [], (ApplyStats stats ss pk buf).1,
          (ApplyStats stats ss pk buf).2⟩ := by
      simp [digestStep, hbuf, hpk]
    simp only [tagEntries, List.map_cons, List.foldl_cons]
    rw [hstep]
    have := foldl_digestStep_same rest t (insertMap r.1 r.2 [])
      (ApplyStats stats ss pk buf).1 (ApplyStats stats ss pk buf).2
      (insertMap_ne_nil _ _ _)
    simpa [tagEntries, mapOf] using this

theorem foldl_digestStep_first (t : Nat) (recs : List (Nat × Coin))
    (hne : recs ≠ []) (pk : Nat) (stats : CCoinsStats) (ss : List HashTok) :
    (tagEntries t recs).foldl digestStep ⟨pk, [], stats, ss⟩ =
      ⟨t, mapOf recs, stats, ss⟩ := by
  match recs, hne with
  | r :: rest, _ =>
    have hstep : digestStep ⟨pk, [], stats, ss⟩ ((t, r.1), r.2) =
        ⟨t, insertMap r.1 r.2 [], stats, ss⟩ := by
      simp [digestStep]
    simp only [tagEntries, List.map_cons, List.foldl_cons]
    rw [hstep]
    have := foldl_digestStep_same rest t (insertMap r.1 r.2 []) stats ss
      (insertMap_ne_nil _ _ _)
    simpa [tagEntries, mapOf] using this

theorem foldl_digestStep_groups (gs : List (Nat × List (Nat × Coin))) :
    ∀ (pk : Nat) (buf : List (Nat × Coin)) (stats : CCoinsStats)
      (ss : List HashTok), buf ≠ [] → (∀ g ∈ gs, g.2 ≠ []) →
      List.Chain (fun a b => a ≠ b) pk (gs.map Prod.fst) →
      finishDigest ((flattenEntries gs).foldl digestStep ⟨pk, buf, stats, ss⟩) =
        flushGroups (ApplyStats stats ss pk buf) (gs.map canonGroup) := by
  induction gs with
  | nil =>
    intro pk buf stats ss hbuf _ _
    simp [flattenEntries, finishDigest, hbuf, flushGroups]
  | cons g rest ih =>
    intro pk buf stats ss hbuf hne hchain
    rcases hchain with _ | ⟨hpk, hchain⟩
    have hflat : flattenEntries (g :: rest) =
        tagEntries g.1 g.2 ++ flattenEntries rest := by
      simp [flattenEntries]
    rw [hflat, List.foldl_append]
    rw [foldl_digestStep_group g.1 g.2 (hne g (by simp)) pk (Ne.symm hpk) buf hbuf]
    rw [ih g.1 (mapOf g.2) _ _ (mapOf_ne_nil _ (hne g (by simp)))
      (fun x hx => hne x (by simp [hx])) hchain]
    simp [flushGroups, canonGroup]

/-- The whole digest run over a contiguously grouped cursor equals the
in-order flush of each group's key-sorted map. -/
theorem GetUTXOStats_canon (bb bh : Nat) (gs : List (Nat × List (Nat × Coin)))
    (hne : ∀ g ∈ gs, g.2 ≠ [])
    (hchain : List.Chain' (fun a b => a ≠ b) (gs.map Prod.fst)) :
    GetUTXOStats bb bh (flattenEntries gs) =
      flushGroups (⟨bh, bb, 0, 0, 0⟩, [HashTok.u256 bb]) (gs.map canonGroup) := by
  match gs with
  | [] => rfl
  | g :: rest =>
    have hflat : flattenEntries (g :: rest) =
        tagEntries g.1 g.2 ++ flattenEntries rest := by
      simp [flattenEntries]
    have hchain2 : List.Chain (fun a b => a ≠ b) g.1 (rest.map Prod.fst) := by
      rw [List.map_cons] at hchain
      exact hchain
    have hdef : GetUTXOStats bb bh (flattenEntries (g :: rest)) =
        finishDigest ((flattenEntries (g :: rest)).foldl digestStep
          ⟨0, [], ⟨bh, bb, 0, 0, 0⟩, [HashTok.u256 bb]⟩) := rfl
    rw [hdef, hflat, List.foldl_append]
    rw [foldl_digestStep_first g.1 g.2 (hne g (by simp)) 0]
    rw [foldl_digestStep_groups rest g.1 (mapOf g.2) _ _
      (mapOf_ne_nil _ (hne g (by simp))) (fun x hx => hne x (by simp [hx])) hchain2]
    simp [flushGroups, canonGroup]

/-- Strict order on map entries by output index. -/
def keyLt (a b : Nat × Coin) : Prop := a.1 < b.1

instance : IsAntisymm (Nat × Coin) keyLt :=
  ⟨fun _ _ h1 h2 => absurd (Nat.lt_trans h1 h2) (Nat.lt_irrefl _)⟩

instance (a b : Nat × Coin) : Decidable (keyLt a b) := by
  unfold keyLt; infer_instance

theorem insertMap_mem (k : Nat) (c : Coin) :
    ∀ (m : List (Nat × Coin)) (b : Nat × Coin), b ∈ insertMap k c m →
      b = (k, c) ∨ b ∈ m := by
  intro m
  induction m with
  | nil => intro b hb; simpa [insertMap] using hb
  | cons x t ih =>
    intro b hb
    obtain ⟨k1, c1⟩ := x
    simp only [insertMap] at hb
    split at hb
    · simp only [List.mem_cons] at hb
      rcases hb with h | h | h
      · exact Or.inl h
      · exact Or.inr (by simp [h])
      · exact Or.inr (by simp [h])
    · split at hb
      · simp only [List.mem_cons] at hb
        rcases hb with h | h
        · exact Or.inl h
        · exact Or.inr (by simp [h])
      · simp only [List.mem_cons] at hb
        rcases hb with h | h
        · exact Or.inr (by simp [h])
        · rcases ih b h with h2 | h2
          · exact Or.inl h2
          · exact Or.inr (by simp [h2])

theorem insertMap_sorted (k : Nat) (c : Coin) :
    ∀ (m : List (Nat × Coin)), m.Sorted keyLt → (insertMap k c m).Sorted keyLt := by
  intro m
  induction m with
  | nil => intro _; simp [insertMap, List.sorted_cons]
  | cons x t ih =>
    intro hs
    obtain ⟨k1, c1⟩ := x
    rw [List.sorted_cons] at hs
    obtain ⟨hall, hst⟩ := hs
    simp only [insertMap]
    split
    · rename_i hlt
      rw [List.sorted_cons]
      refine ⟨?_, ?_⟩
      · intro b hb
        rw [List.mem_cons] at hb
        rcases hb with h | h
        · simp only [h, keyLt]; exact hlt
        · exact Nat.lt_trans hlt (hall b h)
      · rw [List.sorted_cons]; exact ⟨hall, hst⟩
    · split
      · rename_i hlt heq
        rw [List.sorted_cons]
        refine ⟨?_, hst⟩
        intro b hb
        have := hall b hb
        simpa [keyLt, heq] using this
      · rename_i hlt heq
        have hk1k : k1 < k := by omega
        rw [List.sorted_cons]
        refine ⟨?_, ih hst⟩
        intro b hb
        rcases insertMap_mem k c t b hb with h | h
        · simp [h, keyLt]; exact hk1k
        · exact hall b h

theorem insertMap_perm (k : Nat) (c : Coin) :
    ∀ (m : List (Nat × Coin)), k ∉ m.map Prod.fst →
      List.Perm (insertMap k c m) ((k, c) :: m) := by
  intro m
  induction m with
  | nil => intro _; simp [insertMap]
  | cons x t ih =>
    intro hnot
    obtain ⟨k1, c1⟩ := x
    simp only [List.map_cons, List.mem_cons] at hnot
    push_neg at hnot
    simp only [insertMap]
    split
    · exact List.Perm.refl _
    · split
      · rename_i heq
        exact absurd heq hnot.1
      · refine List.Perm.trans (List.Perm.cons _ (ih hnot.2)) ?_
        exact List.Perm.swap _ _ _

theorem foldl_insertMap_perm :
    ∀ (l m : List (Nat × Coin)), (l.map Prod.fst).Nodup →
      (∀ x ∈ l, x.1 ∉ m.map Prod.fst) →
      List.Perm (l.foldl (fun m r => insertMap r.1 r.2 m) m) (m ++ l) := by
  intro l
  induction l with
  | nil => intro m _ _; simp
  | cons r t ih =>
    intro m hnd hdisj
    simp only [List.map_cons, List.nodup_cons] at hnd
    simp only [List.foldl_cons]
    have hr : r.1 ∉ m.map Prod.fst := hdisj r (by simp)
    have hdisj2 : ∀ x ∈ t, x.1 ∉ (insertMap r.1 r.2 m).map Prod.fst := by
      intro x hx hmem
      rw [List.mem_map] at hmem
      obtain ⟨b, hb, hfst⟩ := hmem
      rcases insertMap_mem r.1 r.2 m b hb with h | h
      · apply hnd.1
        rw [List.mem_map]
        exact ⟨x, hx, by rw [← hfst, h]⟩
      · exact hdisj x (by simp [hx]) (by rw [List.mem_map]; exact ⟨b, h, hfst⟩)
    refine List.Perm.trans (ih (insertMap r.1 r.2 m) hnd.2 hdisj2) ?_
    refine List.Perm.trans (List.Perm.append_right t (insertMap_perm r.1 r.2 m hr)) ?_
    have : ((r.1, r.2) :: m) ++ t = (r.1, r.2) :: (m ++ t) := rfl
    rw [this]
    exact List.Perm.symm (List.perm_middle)

theorem mapOf_sorted_aux :
    ∀ (l m : List (Nat × Coin)), m.Sorted keyLt →
      (l.foldl (fun m r => insertMap r.1 r.2 m) m).Sorted keyLt := by
  intro l
  induction l with
  | nil => intro m hm; simpa using hm
  | cons r t ih =>
    intro m hm
    simp only [List.foldl_cons]
    exact ih _ (insertMap_sorted _ _ _ hm)

theorem mapOf_sorted (recs : List (Nat × Coin)) : (mapOf recs).Sorted keyLt :=
  mapOf_sorted_aux recs [] (by simp)

theorem mapOf_perm_self (recs : List (Nat × Coin))
    (hnd : (recs.map Prod.fst).Nodup) : List.Perm (mapOf recs) recs := by
  have := foldl_insertMap_perm recs [] hnd (by simp)
  simpa [mapOf] using this

/-- The group map the digester builds is invariant under permutation of the
group's records, provided output indices within the group are distinct. -/
theorem mapOf_congr_perm (recs1 recs2 : List (Nat × Coin))
    (hperm : List.Perm recs1 recs2) (hnd : (recs1.map Prod.fst).Nodup) :
    mapOf recs1 = mapOf recs2 := by
  have hnd2 : (recs2.map Prod.fst).Nodup :=
    (List.Perm.nodup_iff (List.Perm.map Prod.fst hperm)).1 hnd
  have h1 : List.Perm (mapOf recs1) (mapOf recs2) :=
    List.Perm.trans (mapOf_perm_self recs1 hnd)
      (List.Perm.trans hperm (List.Perm.symm (mapOf_perm_self recs2 hnd2)))
  exact List.eq_of_perm_of_sorted h1 (mapOf_sorted recs1) (mapOf_sorted recs2)


/-- Well-formedness of a contiguously grouped cursor: each group is
non-empty with distinct output indices, and adjacent groups carry distinct
transaction ids (otherwise they would form a single group). -/
def GroupsWF (gs : List (Nat × List (Nat × Coin))) : Prop :=
  (∀ g ∈ gs, g.2 ≠ [] ∧ (g.2.map Prod.fst).Nodup) ∧
    List.Chain' (fun a b => a ≠ b) (gs.map Prod.fst)

/-- Two groups with the same transaction id whose records are a permutation
of each other. -/
def GroupPerm (g1 g2 : Nat × List (Nat × Coin)) : Prop :=
  g1.1 = g2.1 ∧ List.Perm g1.2 g2.2

theorem forall2_mem_right {α β : Type} {R : α → β → Prop} :
    ∀ {l1 : List α} {l2 : List β}, List.Forall₂ R l1 l2 →
      ∀ b ∈ l2, ∃ a ∈ l1, R a b := by
  intro l1 l2 h
  induction h with
  | nil => intro b hb; simp at hb
  | cons hrel _ ih =>
    intro b hb
    rw [List.mem_cons] at hb
    rcases hb with rfl | hb
    · exact ⟨_, by simp, hrel⟩
    · obtain ⟨a, ha, har⟩ := ih b hb
      exact ⟨a, by simp [ha], har⟩

theorem forall2_groupPerm_fst (gs1 gs2 : List (Nat × List (Nat × Coin)))
    (h : List.Forall₂ GroupPerm gs1 gs2) :
    gs1.map Prod.fst = gs2.map Prod.fst := by
  induction h with
  | nil => rfl
  | cons hg _ ih => simp [hg.1, ih]

theorem forall2_groupPerm_wf (gs1 gs2 : List (Nat × List (Nat × Coin)))
    (h : List.Forall₂ GroupPerm gs1 gs2) (hwf : GroupsWF gs1) : GroupsWF gs2 := by
  obtain ⟨hg, hc⟩ := hwf
  refine ⟨?_, ?_⟩
  · intro g2 hg2
    obtain ⟨g1, hg1, hrel⟩ := forall2_mem_right h g2 hg2
    obtain ⟨hne, hnd⟩ := hg g1 hg1
    refine ⟨?_, ?_⟩
    · intro hnil
      have hp := hrel.2
      rw [hnil] at hp
      exact hne (List.Perm.eq_nil hp)
    · exact (List.Perm.nodup_iff (List.Perm.map Prod.fst hrel.2)).1 hnd
  · rw [← forall2_groupPerm_fst gs1 gs2 h]
    exact hc

theorem forall2_canonGroup_eq :
    ∀ (gs1 gs2 : List (Nat × List (Nat × Coin))),
      List.Forall₂ GroupPerm gs1 gs2 →
      (∀ g ∈ gs1, (g.2.map Prod.fst).Nodup) →
      gs1.map canonGroup = gs2.map canonGroup := by
  intro gs1 gs2 h
  induction h with
  | nil => intro _; rfl
  | cons hrel htail ih =>
    rename_i a b l1 l2
    intro hnd
    simp only [List.map_cons]
    rw [ih (fun g hg => hnd g (by simp [hg]))]
    have hhead : canonGroup a = canonGroup b := by
      unfold canonGroup
      rw [hrel.1, mapOf_congr_perm _ _ hrel.2 (hnd a (by simp))]
    rw [hhead]

/-- Digest invariance under permutation of records within each group. -/
theorem digest_group_perm_invariant (bb bh : Nat)
    (gs1 gs2 : List (Nat × List (Nat × Coin)))
    (h : List.Forall₂ GroupPerm gs1 gs2) (hwf : GroupsWF gs1) :
    GetUTXOStats bb bh (flattenEntries gs1) =
      GetUTXOStats bb bh (flattenEntries gs2) := by
  have hwf2 := forall2_groupPerm_wf gs1 gs2 h hwf
  rw [GetUTXOStats_canon bb bh gs1 (fun g hg => (hwf.1 g hg).1) hwf.2,
    GetUTXOStats_canon bb bh gs2 (fun g hg => (hwf2.1 g hg).1) hwf2.2,
    forall2_canonGroup_eq gs1 gs2 h (fun g hg => (hwf.1 g hg).2)]

/-- The stream of hash values fed to the digest hash for a list of flushed
groups. -/
def streamGroups (gs : List (Nat × List (Nat × Coin))) : List HashTok :=
  (gs.map groupStream).flatten

/-- Well-formedness of one flushed group: non-empty, and all records share
the first record's height, coinbase flag and coinstake flag (the invariant
the source relies on, hashing those of the first record only). -/
def FGroupWF (g : Nat × List (Nat × Coin)) : Prop :=
  g.2 ≠ [] ∧ ∀ r ∈ g.2,
    r.2.nHeight = (headCoin g.2).nHeight ∧
    r.2.fCoinBase = (headCoin g.2).fCoinBase ∧
    r.2.fCoinStake = (headCoin g.2).fCoinStake

/-- The observable data of one output inside the hash stream. -/
def obsOut (r : Nat × Coin) : Nat × List Nat × Int :=
  (r.1, r.2.scriptPubKey, r.2.nValue)

/-- The observable data of one group inside the hash stream. -/
def obsGroup (g : Nat × List (Nat × Coin)) :
    Nat × Nat × List (Nat × List Nat × Int) :=
  (g.1, coinHeader (headCoin g.2), g.2.map obsOut)

theorem flushGroups_stream (gs : List (Nat × List (Nat × Coin))) :
    ∀ (stats : CCoinsStats) (ss : List HashTok), (∀ g ∈ gs, g.2 ≠ []) →
      (flushGroups (stats, ss) gs).2 = ss ++ streamGroups gs := by
  induction gs with
  | nil => intro stats ss _; simp [flushGroups, streamGroups]
  | cons g rest ih =>
    intro stats ss hne
    have hg : flushGroups (stats, ss) (g :: rest) =
        flushGroups (ApplyStats stats ss g.1 g.2) rest := rfl
    rw [hg]
    have happ := applyStats_stream stats ss g.1 g.2 (hne g (by simp))
    have : ApplyStats stats ss g.1 g.2 =
        ((ApplyStats stats ss g.1 g.2).1, ss ++ groupStream (g.1, g.2)) := by
      rw [← happ]
    rw [this, ih _ _ (fun x hx => hne x (by simp [hx]))]
    simp only [streamGroups, List.map_cons, List.flatten_cons, List.append_assoc]

/-- The hash stream `GetUTXOStats` feeds to the digest hash: the best block
hash followed by each group's framed block, with the group's records in
key-sorted map order. -/
theorem GetUTXOStats_stream (bb bh : Nat)
    (gs : List (Nat × List (Nat × Coin))) (hwf : GroupsWF gs) :
    (GetUTXOStats bb bh (flattenEntries gs)).2 =
      HashTok.u256 bb :: streamGroups (gs.map canonGroup) := by
  rw [GetUTXOStats_canon bb bh gs (fun g hg => (hwf.1 g hg).1) hwf.2]
  have hne : ∀ g ∈ gs.map canonGroup, g.2 ≠ [] := by
    intro g hg
    rw [List.mem_map] at hg
    obtain ⟨g0, hg0, rfl⟩ := hg
    exact mapOf_ne_nil _ ((hwf.1 g0 hg0).1)
  rw [flushGroups_stream (gs.map canonGroup) _ _ hne]
  rfl

/-- Parser for the per-output section of one group's hash-stream block:
recovers each output's `(index, script, amount)` up to the sentinel `0`. -/
def parseOuts : List HashTok → Option (List (Nat × List Nat × Int) × List HashTok)
  | HashTok.varint 0 :: rest => some ([], rest)
  | HashTok.varint (n + 1) :: HashTok.script s :: HashTok.varamt v :: rest =>
    match parseOuts rest with
    | some (os, r) => some ((n, s, v) :: os, r)
    | none => none
  | _ => none

/-- Fuelled parser for a whole hash stream of groups. -/
def parseGroups : Nat → List HashTok →
    Option (List (Nat × Nat × List (Nat × List Nat × Int)))
  | _, [] => some []
  | fuel + 1, HashTok.u256 t :: HashTok.varint hdr :: rest =>
    match parseOuts rest with
    | some (os, r) =>
      match parseGroups fuel r with
      | some gs => some ((t, hdr, os) :: gs)
      | none => none
    | none => none
  | _, _ => none

theorem parseOuts_roundtrip (outs : List (Nat × Coin)) :
    ∀ tail, parseOuts ((outs.map outTokens).flatten ++ HashTok.varint 0 :: tail) =
      some (outs.map obsOut, tail) := by
  induction outs with
  | nil => intro tail; simp [parseOuts]
  | cons r t ih =>
    intro tail
    have hshape : ((r :: t).map outTokens).flatten ++ HashTok.varint 0 :: tail =
        HashTok.varint (r.1 + 1) :: HashTok.script r.2.scriptPubKey ::
          HashTok.varamt r.2.nValue ::
          ((t.map outTokens).flatten ++ HashTok.varint 0 :: tail) := by
      simp [outTokens]
    rw [hshape]
    simp only [parseOuts, ih tail]
    simp [obsOut]

theorem parseGroups_roundtrip (gs : List (Nat × List (Nat × Coin))) :
    ∀ fuel, gs.length ≤ fuel →
      parseGroups fuel (streamGroups gs) = some (gs.map obsGroup) := by
  induction gs with
  | nil =>
    intro fuel _
    simp [streamGroups, parseGroups]
  | cons g t ih =>
    intro fuel hlen
    match fuel, hlen with
    | f + 1, hlen2 =>
      have hshape : streamGroups (g :: t) =
          HashTok.u256 g.1 :: HashTok.varint (coinHeader (headCoin g.2)) ::
            ((g.2.map outTokens).flatten ++ HashTok.varint 0 :: streamGroups t) := by
        simp [streamGroups, groupStream, List.append_assoc]
      rw [hshape]
      simp only [parseGroups, parseOuts_roundtrip g.2 (streamGroups t)]
      rw [ih f (Nat.le_of_succ_le_succ (by simpa using hlen2))]
      simp [obsGroup]

theorem coinHeader_inj_parts (c1 c2 : Coin) (h : coinHeader c1 = coinHeader c2) :
    c1.nHeight = c2.nHeight ∧ c1.fCoinBase = c2.fCoinBase ∧
      c1.fCoinStake = c2.fCoinStake := by
  unfold coinHeader at h
  cases hb1 : c1.fCoinBase <;> cases hb2 : c2.fCoinBase <;>
    cases hs1 : c1.fCoinStake <;> cases hs2 : c2.fCoinStake <;>
    rw [hb1, hb2, hs1, hs2] at h <;> simp at h ⊢ <;> omega

theorem recs_eq_of_obs (H1 H2 : Nat) (B1 B2 C1 C2 : Bool)
    (hH : H1 = H2) (hB : B1 = B2) (hC : C1 = C2) :
    ∀ (l1 l2 : List (Nat × Coin)),
      (∀ r ∈ l1, r.2.nHeight = H1 ∧ r.2.fCoinBase = B1 ∧ r.2.fCoinStake = C1) →
      (∀ r ∈ l2, r.2.nHeight = H2 ∧ r.2.fCoinBase = B2 ∧ r.2.fCoinStake = C2) →
      l1.map obsOut = l2.map obsOut → l1 = l2 := by
  subst hH; subst hB; subst hC
  intro l1
  induction l1 with
  | nil =>
    intro l2 _ _ hmap
    cases l2 with
    | nil => rfl
    | cons x t => simp at hmap
  | cons r1 t1 ih =>
    intro l2 h1 h2 hmap
    cases l2 with
    | nil => simp at hmap
    | cons r2 t2 =>
      simp only [List.map_cons, List.cons.injEq] at hmap
      obtain ⟨hhead, htail⟩ := hmap
      obtain ⟨hk, hs, hv⟩ : r1.1 = r2.1 ∧ r1.2.scriptPubKey = r2.2.scriptPubKey ∧
          r1.2.nValue = r2.2.nValue := by
        simpa [obsOut] using hhead
      obtain ⟨hh1, hb1, hc1⟩ := h1 r1 (by simp)
      obtain ⟨hh2, hb2, hc2⟩ := h2 r2 (by simp)
      have hcoin : r1.2 = r2.2 := by
        obtain ⟨p1, q1⟩ := r1
        obtain ⟨p2, q2⟩ := r2
        obtain ⟨w1, x1, y1, z1, u1⟩ := q1
        obtain ⟨w2, x2, y2, z2, u2⟩ := q2
        simp_all
      have hr : r1 = r2 := by
        obtain ⟨p1, q1⟩ := r1
        obtain ⟨p2, q2⟩ := r2
        simp_all
      rw [hr, ih t2 (fun r hr2 => h1 r (by simp [hr2]))
        (fun r hr2 => h2 r (by simp [hr2])) htail]

theorem obsGroup_inj (g1 g2 : Nat × List (Nat × Coin)) (h1 : FGroupWF g1)
    (h2 : FGroupWF g2) (h : obsGroup g1 = obsGroup g2) : g1 = g2 := by
  obtain ⟨hfst, hhdr, houts⟩ : g1.1 = g2.1 ∧
      coinHeader (headCoin g1.2) = coinHeader (headCoin g2.2) ∧
      g1.2.map obsOut = g2.2.map obsOut := by
    simpa [obsGroup] using h
  obtain ⟨hH, hB, hC⟩ := coinHeader_inj_parts _ _ hhdr
  have hrecs : g1.2 = g2.2 :=
    recs_eq_of_obs _ _ _ _ _ _ hH hB hC g1.2 g2.2 h1.2 h2.2 houts
  obtain ⟨a1, b1⟩ := g1
  obtain ⟨a2, b2⟩ := g2
  simp_all

theorem map_obsGroup_inj :
    ∀ (gs1 gs2 : List (Nat × List (Nat × Coin))),
      (∀ g ∈ gs1, FGroupWF g) → (∀ g ∈ gs2, FGroupWF g) →
      gs1.map obsGroup = gs2.map obsGroup → gs1 = gs2 := by
  intro gs1
  induction gs1 with
  | nil =>
    intro gs2 _ _ hmap
    cases gs2 with
    | nil => rfl
    | cons x t => simp at hmap
  | cons g1 t1 ih =>
    intro gs2 h1 h2 hmap
    cases gs2 with
    | nil => simp at hmap
    | cons g2 t2 =>
      simp only [List.map_cons, List.cons.injEq] at hmap
      rw [obsGroup_inj g1 g2 (h1 g1 (by simp)) (h2 g2 (by simp)) hmap.1,
        ih t2 (fun g hg => h1 g (by simp [hg])) (fun g hg => h2 g (by simp [hg]))
          hmap.2]

/-- The hash stream determines the flushed groups: two well-formed group
lists feeding the same value stream to the hash are equal. -/
theorem streamGroups_inj (gs1 gs2 : List (Nat × List (Nat × Coin)))
    (h1 : ∀ g ∈ gs1, FGroupWF g) (h2 : ∀ g ∈ gs2, FGroupWF g)
    (h : streamGroups gs1 = streamGroups gs2) : gs1 = gs2 := by
  have hp1 := parseGroups_roundtrip gs1 (gs1.length + gs2.length) (by omega)
  have hp2 := parseGroups_roundtrip gs2 (gs1.length + gs2.length) (by omega)
  rw [h] at hp1
  rw [hp2] at hp1
  exact map_obsGroup_inj gs1 gs2 h1 h2 (Option.some.inj hp1).symm

instance (gs : List (Nat × List (Nat × Coin))) : Decidable (GroupsWF gs) :=
  inferInstanceAs (Decidable
    ((∀ g ∈ gs, g.2 ≠ [] ∧ (g.2.map Prod.fst).Nodup) ∧
      List.Chain' (fun a b => a ≠ b) (gs.map Prod.fst)))

instance (g1 g2 : Nat × List (Nat × Coin)) : Decidable (GroupPerm g1 g2) :=
  inferInstanceAs (Decidable (g1.1 = g2.1 ∧ List.Perm g1.2 g2.2))

instance (g : Nat × List (Nat × Coin)) : Decidable (FGroupWF g) :=
  inferInstanceAs (Decidable (g.2 ≠ [] ∧ ∀ r ∈ g.2,
    r.2.nHeight = (headCoin g.2).nHeight ∧
    r.2.fCoinBase = (headCoin g.2).fCoinBase ∧
    r.2.fCoinStake = (headCoin g.2).fCoinStake))

/-- Claim C6: for any two cursors yielding the same transaction-id groups in
the same order with records permuted within each group, `GetUTXOStats`
produces the same statistics and serialized hash stream; the stream fed to
the hash is exactly the best-block hash followed by each group's framed
block; and that stream determines the well-formed flushed groups, so any
difference in an output's value, script bytes, height, coinbase flag or
coinstake flag changes the byte stream fed to the hash and hence the
digest. -/
theorem C6_digest_perm_invariant_and_injective :
    (∀ (bb bh : Nat) (gs1 gs2 : List (Nat × List (Nat × Coin))),
        List.Forall₂ GroupPerm gs1 gs2 → GroupsWF gs1 →
        GetUTXOStats bb bh (flattenEntries gs1) =
          GetUTXOStats bb bh (flattenEntries gs2)) ∧
    (∀ (bb bh : Nat) (gs : List (Nat × List (Nat × Coin))), GroupsWF gs →
        (GetUTXOStats bb bh (flattenEntries gs)).2 =
          HashTok.u256 bb :: streamGroups (gs.map canonGroup)) ∧
    (∀ (gs1 gs2 : List (Nat × List (Nat × Coin))),
        (∀ g ∈ gs1, FGroupWF g) → (∀ g ∈ gs2, FGroupWF g) →
        streamGroups gs1 = streamGroups gs2 → gs1 = gs2) :=
  ⟨digest_group_perm_invariant, GetUTXOStats_stream, streamGroups_inj⟩

/-- A concrete coin used by witnesses. -/
def wCoinA : Coin := ⟨2, false, false, 11, [3]⟩

/-- A second concrete coin used by witnesses. -/
def wCoinB : Coin := ⟨2, false, false, 12, [4, 5]⟩

/-- Witness for C6 at a concrete one-group cursor with the two records
swapped. -/
theorem C6_digest_perm_invariant_and_injective_witness :
    GetUTXOStats 9 3 (flattenEntries [(5, [(0, wCoinA), (1, wCoinB)])]) =
      GetUTXOStats 9 3 (flattenEntries [(5, [(1, wCoinB), (0, wCoinA)])]) ∧
    (GetUTXOStats 9 3 (flattenEntries [(5, [(0, wCoinA), (1, wCoinB)])])).2 =
      HashTok.u256 9 ::
        streamGroups ([(5, [(0, wCoinA), (1, wCoinB)])].map canonGroup) ∧
    ([(5, [(0, wCoinA), (1, wCoinB)])] : List (Nat × List (Nat × Coin))) =
      [(5, [(0, wCoinA), (1, wCoinB)])] := by
  have hwf : GroupsWF [(5, [(0, wCoinA), (1, wCoinB)])] := by
    refine ⟨?_, ?_⟩
    · intro g hg
      simp only [List.mem_singleton] at hg
      subst hg
      exact ⟨by simp, by simp⟩
    · simp
  have hfwf : ∀ g ∈ ([(5, [(0, wCoinA), (1, wCoinB)])] :
      List (Nat × List (Nat × Coin))), FGroupWF g := by
    intro g hg
    simp only [List.mem_singleton] at hg
    subst hg
    refine ⟨by simp, ?_⟩
    intro r hr
    simp only [List.mem_cons, List.not_mem_nil, or_false] at hr
    rcases hr with rfl | rfl
    · exact ⟨rfl, rfl, rfl⟩
    · exact ⟨rfl, rfl, rfl⟩
  exact ⟨C6_digest_perm_invariant_and_injective.1 9 3 _ _
      (List.Forall₂.cons ⟨rfl, List.Perm.swap (1, wCoinB) (0, wCoinA) []⟩
        List.Forall₂.nil) hwf,
    C6_digest_perm_invariant_and_injective.2.1 9 3 _ hwf,
    C6_digest_perm_invariant_and_injective.2.2 _ _ hfwf hfwf rfl⟩

/-! ## Chain tip resolver -/

/-- A block-index node (`CBlockIndex`), identified by its block hash `id`.
`failedMask` models `nStatus & BLOCK_FAILED_MASK` (the source's comment:
"This block or one of its ancestors is invalid"); `validScripts` models
`IsValid(BLOCK_VALID_SCRIPTS)` and `validTree` models
`IsValid(BLOCK_VALID_TREE)`, all maintained by external validation code. -/
structure CBlockIndex where
  id : Nat
  pprev : Option Nat
  nHeight : Nat
  failedMask : Bool
  nChainTx : Nat
  validScripts : Bool
  validTree : Bool
deriving DecidableEq

/-- Hash lookup in the block-index map (`mapBlockIndex`). -/
def lookupNode (forest : List CBlockIndex) (i : Nat) : Option CBlockIndex :=
  forest.find? (fun b => b.id == i)

/-- The parent node of a block, when the parent link is set and resolves. -/
def parentNode (forest : List CBlockIndex) (b : CBlockIndex) :
    Option CBlockIndex :=
  b.pprev.bind (lookupNode forest)

/-- Active-chain membership (`CChain::Contains`, which is
`chainActive[b->nHeight] == b`); the active chain is the list of block
hashes indexed by height. -/
def chainContains (chain : List Nat) (b : CBlockIndex) : Bool :=
  chain[b.nHeight]? == some b.id

/-- Modelled from the spec: the fork-point computation used by
`getchaintips`, "the highest-height ancestor of tip that also lies on the
active chain (a simple ancestor walk, or equivalent active-chain membership
test)".  The walk itself (`CChain::FindFork`) is external chain code, not
part of the source file. -/
def findForkWalk (forest : List CBlockIndex) (chain : List Nat) :
    Nat → CBlockIndex → Option CBlockIndex
  | 0, _ => none
  | fuel + 1, b =>
    if chainContains chain b then some b
    else (parentNode forest b).bind (findForkWalk forest chain fuel)

/-- The ancestors of a node (itself included), walking parent links for at
most `fuel` steps. -/
def ancestorsWalk (forest : List CBlockIndex) :
    Nat → CBlockIndex → List CBlockIndex
  | 0, _ => []
  | fuel + 1, b =>
    b :: ((parentNode forest b).map (ancestorsWalk forest fuel)).getD []

/-- Tip classification outcomes of `getchaintips`. -/
inductive TipStatus where
  | active
  | invalid
  | headersOnly
  | validFork
  | validHeaders
  | unknown
deriving DecidableEq

/-- Status classification of `getchaintips` (blockchain.cpp:1087-1106). -/
def tipStatus (chain : List Nat) (b : CBlockIndex) : TipStatus :=
  if chainContains chain b then TipStatus.active
  else if b.failedMask then TipStatus.invalid
  else if b.nChainTx == 0 then TipStatus.headersOnly
  else if b.validScripts then TipStatus.validFork
  else if b.validTree then TipStatus.validHeaders
  else TipStatus.unknown

/-- The ordered list of status tests, as the claim states them. -/
def tipStatusTests (chain : List Nat) (b : CBlockIndex) :
    List (Bool × TipStatus) :=
  [(chainContains chain b, TipStatus.active),
   (b.failedMask, TipStatus.invalid),
   (b.nChainTx == 0, TipStatus.headersOnly),
   (b.validScripts, TipStatus.validFork),
   (b.validTree, TipStatus.validHeaders)]

/-- First matching case of an ordered test list, defaulting to `unknown`. -/
def firstMatching : List (Bool × TipStatus) → TipStatus
  | [] => TipStatus.unknown
  | (c, s) :: t => if c then s else firstMatching t

/-- The `branchlen` field of `getchaintips` (blockchain.cpp:1084):
`tip.height − forkPoint.height`. -/
def getchaintipsBranchLen (forest : List CBlockIndex) (chain : List Nat)
    (fuel : Nat) (b : CBlockIndex) : Option Int :=
  (findForkWalk forest chain fuel b).map
    (fun f => (b.nHeight : Int) - f.nHeight)

/-- Parent-link well-formedness of one node: a resolvable parent has
strictly smaller height. -/
def parentOk (forest : List CBlockIndex) (b : CBlockIndex) : Bool :=
  ((parentNode forest b).map
    (fun pb => decide (pb.nHeight < b.nHeight))).getD true

/-- Executable well-formedness of the block index: every parent reachable by
hash has strictly smaller height. -/
def parentHeightsDecrease (forest : List CBlockIndex) : Bool :=
  forest.all (parentOk forest)

theorem lookupNode_mem (forest : List CBlockIndex) (i : Nat)
    (x : CBlockIndex) (h : lookupNode forest i = some x) : x ∈ forest :=
  List.mem_of_find?_eq_some h

theorem parentNode_mem (forest : List CBlockIndex) (b pb : CBlockIndex)
    (h : parentNode forest b = some pb) : pb ∈ forest := by
  unfold parentNode at h
  match hp : b.pprev with
  | none => rw [hp] at h; simp at h
  | some p =>
    rw [hp] at h
    simp only [Option.some_bind] at h
    exact lookupNode_mem forest p pb h

theorem parentHeightsDecrease_spec (forest : List CBlockIndex)
    (hall : parentHeightsDecrease forest = true) (b : CBlockIndex)
    (hb : b ∈ forest) (pb : CBlockIndex)
    (hpb : parentNode forest b = some pb) : pb.nHeight < b.nHeight := by
  have := List.all_eq_true.mp hall b hb
  rw [parentOk, hpb] at this
  simpa using this

theorem ancestorsWalk_height_le (forest : List CBlockIndex)
    (hall : parentHeightsDecrease forest = true) :
    ∀ (fuel : Nat) (b : CBlockIndex), b ∈ forest →
      ∀ a ∈ ancestorsWalk forest fuel b, a.nHeight ≤ b.nHeight := by
  intro fuel
  induction fuel with
  | zero => intro b _ a ha; simp [ancestorsWalk] at ha
  | succ f ih =>
    intro b hb a ha
    simp only [ancestorsWalk, List.mem_cons] at ha
    rcases ha with rfl | ha
    · exact Nat.le_refl _
    · match hpb : parentNode forest b with
      | none => rw [hpb] at ha; simp at ha
      | some pb =>
        rw [hpb] at ha
        simp at ha
        have hdec := parentHeightsDecrease_spec forest hall b hb pb hpb
        have := ih pb (parentNode_mem forest b pb hpb) a ha
        omega

theorem findForkWalk_spec (forest : List CBlockIndex) (chain : List Nat)
    (hall : parentHeightsDecrease forest = true) :
    ∀ (fuel : Nat) (b : CBlockIndex), b ∈ forest →
      ∀ f, findForkWalk forest chain fuel b = some f →
        chainContains chain f = true ∧ f ∈ ancestorsWalk forest fuel b ∧
        f.nHeight ≤ b.nHeight ∧
        ∀ a ∈ ancestorsWalk forest fuel b, chainContains chain a = true →
          a.nHeight ≤ f.nHeight := by
  intro fuel
  induction fuel with
  | zero => intro b _ f hf; simp [findForkWalk] at hf
  | succ fl ih =>
    intro b hb f hf
    rw [findForkWalk] at hf
    by_cases hc : chainContains chain b
    · rw [if_pos hc] at hf
      obtain rfl : b = f := by simpa using hf
      refine ⟨hc, by simp [ancestorsWalk], Nat.le_refl _, ?_⟩
      intro a ha _
      simp only [ancestorsWalk, List.mem_cons] at ha
      rcases ha with rfl | ha
      · exact Nat.le_refl _
      · match hpb : parentNode forest b with
        | none => rw [hpb] at ha; simp at ha
        | some pb =>
          rw [hpb] at ha
          simp at ha
          have hdec := parentHeightsDecrease_spec forest hall b hb pb hpb
          have := ancestorsWalk_height_le forest hall fl pb
            (parentNode_mem forest b pb hpb) a ha
          omega
    · rw [if_neg hc] at hf
      match hpb : parentNode forest b with
      | none => rw [hpb] at hf; simp at hf
      | some pb =>
        rw [hpb] at hf
        simp only [Option.some_bind] at hf
        have hpbmem := parentNode_mem forest b pb hpb
        obtain ⟨hfc, hfmem, hfle, hfmax⟩ := ih pb hpbmem f hf
        have hdec := parentHeightsDecrease_spec forest hall b hb pb hpb
        refine ⟨hfc, ?_, by omega, ?_⟩
        · simp only [ancestorsWalk, List.mem_cons, hpb]
          simp
          exact Or.inr hfmem
        · intro a ha hac
          simp only [ancestorsWalk, List.mem_cons, hpb] at ha
          simp at ha
          rcases ha with rfl | ha
          · exact absurd hac (by simp [hc])
          · exact hfmax a ha hac

/-- Claim C3: for a tip of the block index, the reported branch length is
`tip.height − forkPoint.height` where the fork point is the highest-height
ancestor of the tip lying on the active chain, and the reported status is
the first matching case of the ordered tests: on the active chain →
`active`; an invalid-flagged branch → `invalid`; zero validated transaction
count → `headers-only`; fully script-validated → `valid-fork`; header-tree
valid → `valid-headers`; otherwise `unknown`. -/
theorem C3_getchaintips_branchlen_and_status (forest : List CBlockIndex)
    (chain : List Nat) (fuel : Nat) (b f : CBlockIndex)
    (hall : parentHeightsDecrease forest = true) (hb : b ∈ forest)
    (hfork : findForkWalk forest chain fuel b = some f) :
    getchaintipsBranchLen forest chain fuel b =
        some ((b.nHeight : Int) - f.nHeight) ∧
    chainContains chain f = true ∧
    f ∈ ancestorsWalk forest fuel b ∧
    (∀ a ∈ ancestorsWalk forest fuel b, chainContains chain a = true →
      a.nHeight ≤ f.nHeight) ∧
    tipStatus chain b = firstMatching (tipStatusTests chain b) := by
  obtain ⟨hfc, hfmem, _, hfmax⟩ :=
    findForkWalk_spec forest chain hall fuel b hb f hfork
  refine ⟨?_, hfc, hfmem, hfmax, ?_⟩
  · rw [getchaintipsBranchLen, hfork]
    rfl
  · rfl

/-- Concrete forest for the chain-tip witnesses: an active chain of ids
10-11-12 at heights 0-2 and a fork tip 20 on top of 11. -/
def wForest : List CBlockIndex :=
  [⟨10, none, 0, false, 1, true, true⟩,
   ⟨11, some 10, 1, false, 2, true, true⟩,
   ⟨12, some 11, 2, false, 3, true, true⟩,
   ⟨20, some 11, 2, false, 0, false, true⟩]

/-- The active chain of the witness forest. -/
def wChain : List Nat := [10, 11, 12]

/-- Witness for C3: the fork tip 20 has fork point 11 and branch length 1. -/
theorem C3_getchaintips_branchlen_and_status_witness :
    getchaintipsBranchLen wForest wChain 3 ⟨20, some 11, 2, false, 0, false, true⟩ =
        some ((2 : Int) - 1) ∧
    chainContains wChain ⟨11, some 10, 1, false, 2, true, true⟩ = true ∧
    (⟨11, some 10, 1, false, 2, true, true⟩ : CBlockIndex) ∈
      ancestorsWalk wForest 3 ⟨20, some 11, 2, false, 0, false, true⟩ ∧
    (∀ a ∈ ancestorsWalk wForest 3 ⟨20, some 11, 2, false, 0, false, true⟩,
      chainContains wChain a = true →
        a.nHeight ≤ (⟨11, some 10, 1, false, 2, true, true⟩ : CBlockIndex).nHeight) ∧
    tipStatus wChain ⟨20, some 11, 2, false, 0, false, true⟩ =
      firstMatching (tipStatusTests wChain ⟨20, some 11, 2, false, 0, false, true⟩) :=
  C3_getchaintips_branchlen_and_status wForest wChain 3
    ⟨20, some 11, 2, false, 0, false, true⟩ ⟨11, some 10, 1, false, 2, true, true⟩
    (by decide) (by decide) (by decide)

/-- `CompareBlocksByHeight` (blockchain.cpp:1013-1024): order tips by height
descending; unequal blocks with the same height are distinguished by node
identity (the source compares the pointers themselves; nodes here are
identified by hash id). -/
def CompareBlocksByHeight (a b : CBlockIndex) : Bool :=
  if a.nHeight ≠ b.nHeight then decide (a.nHeight > b.nHeight)
  else decide (a.id < b.id)

/-- `std::set` equivalence under a comparator: neither element precedes the
other. -/
def setEquiv (a b : CBlockIndex) : Bool :=
  !(CompareBlocksByHeight a b) && !(CompareBlocksByHeight b a)

/-- Ordered insertion into the comparator-sorted element list. -/
def insertSorted (b : CBlockIndex) : List CBlockIndex → List CBlockIndex
  | [] => [b]
  | x :: t =>
    if CompareBlocksByHeight b x then b :: x :: t else x :: insertSorted b t

/-- `std::set::insert`: a no-op when an equivalent element is present. -/
def setInsert (s : List CBlockIndex) (b : CBlockIndex) : List CBlockIndex :=
  if s.any (fun x => setEquiv x b) then s else insertSorted b s

/-- `std::set::erase` by key: removes the element equivalent to `b`. -/
def setErase (s : List CBlockIndex) (b : CBlockIndex) : List CBlockIndex :=
  s.filter (fun x => !(setEquiv x b))

/-- The tip-set construction of `getchaintips` (blockchain.cpp:1062-1075):
insert every known block, erase every block referenced as another block's
parent, then unconditionally re-insert the active tip. -/
def getchaintipsSetTips (forest : List CBlockIndex) (activeTip : CBlockIndex) :
    List CBlockIndex :=
  let s := forest.foldl setInsert []
  let s := forest.foldl (fun s b =>
    match parentNode forest b with
    | none => s
    | some pb => setErase s pb) s
  setInsert s activeTip

theorem setEquiv_iff (a b : CBlockIndex) :
    setEquiv a b = true ↔ a.nHeight = b.nHeight ∧ a.id = b.id := by
  unfold setEquiv CompareBlocksByHeight
  by_cases h : a.nHeight = b.nHeight
  · simp [h]
    omega
  · simp [h, Ne.symm h]
    omega

theorem setEquiv_refl (a : CBlockIndex) : setEquiv a a = true := by
  rw [setEquiv_iff]
  exact ⟨rfl, rfl⟩

theorem setEquiv_symm (a b : CBlockIndex) : setEquiv a b = setEquiv b a := by
  unfold setEquiv
  rw [Bool.and_comm]

theorem insertSorted_perm (b : CBlockIndex) :
    ∀ s : List CBlockIndex, List.Perm (insertSorted b s) (b :: s) := by
  intro s
  induction s with
  | nil => simp [insertSorted]
  | cons x t ih =>
    simp only [insertSorted]
    split
    · exact List.Perm.refl _
    · exact List.Perm.trans (List.Perm.cons x ih) (List.Perm.swap b x t)

theorem setInsert_count_self (s : List CBlockIndex) (b : CBlockIndex)
    (habs : s.any (fun x => setEquiv x b) = false) :
    (setInsert s b).count b = s.count b + 1 := by
  rw [setInsert, if_neg (by simp [habs])]
  rw [List.Perm.count_eq (insertSorted_perm b s)]
  simp [List.count_cons]

theorem pairwise_setInsert (s : List CBlockIndex) (b : CBlockIndex)
    (hp : s.Pairwise (fun x y => setEquiv x y = false)) :
    (setInsert s b).Pairwise (fun x y => setEquiv x y = false) := by
  rw [setInsert]
  split
  · exact hp
  · rename_i hany
    have hsymm : Symmetric (fun x y : CBlockIndex => setEquiv x y = false) := by
      intro x y hxy
      rw [setEquiv_symm]
      exact hxy
    rw [List.Perm.pairwise_iff (fun h => hsymm h) (insertSorted_perm b s)]
    rw [List.pairwise_cons]
    refine ⟨?_, hp⟩
    intro x hx
    rw [List.any_eq_true] at hany
    push_neg at hany
    have := hany x hx
    rw [setEquiv_symm]
    simpa using this

theorem pairwise_setErase (s : List CBlockIndex) (b : CBlockIndex)
    (hp : s.Pairwise (fun x y => setEquiv x y = false)) :
    (setErase s b).Pairwise (fun x y => setEquiv x y = false) :=
  List.Pairwise.sublist (List.filter_sublist s) hp

theorem mem_setInsert (s : List CBlockIndex) (b x : CBlockIndex)
    (hx : x ∈ setInsert s b) : x = b ∨ x ∈ s := by
  rw [setInsert] at hx
  split at hx
  · exact Or.inr hx
  · have := (insertSorted_perm b s).mem_iff.mp hx
    simpa using this

theorem mem_foldl_setInsert (l : List CBlockIndex) :
    ∀ (acc : List CBlockIndex) (x : CBlockIndex),
      x ∈ l.foldl setInsert acc → x ∈ acc ∨ x ∈ l := by
  induction l with
  | nil => intro acc x hx; exact Or.inl hx
  | cons b t ih =>
    intro acc x hx
    simp only [List.foldl_cons] at hx
    rcases ih (setInsert acc b) x hx with h | h
    · rcases mem_setInsert acc b x h with h2 | h2
      · exact Or.inr (by simp [h2])
      · exact Or.inl h2
    · exact Or.inr (by simp [h])

theorem pairwise_foldl_setInsert (l : List CBlockIndex) :
    ∀ acc : List CBlockIndex,
      acc.Pairwise (fun x y => setEquiv x y = false) →
      (l.foldl setInsert acc).Pairwise (fun x y => setEquiv x y = false) := by
  induction l with
  | nil => intro acc hp; exact hp
  | cons b t ih =>
    intro acc hp
    exact ih (setInsert acc b) (pairwise_setInsert acc b hp)

theorem mem_foldl_erase (l : List CBlockIndex) (forest : List CBlockIndex) :
    ∀ (acc : List CBlockIndex) (x : CBlockIndex),
      x ∈ l.foldl (fun s b =>
        match parentNode forest b with
        | none => s
        | some pb => setErase s pb) acc → x ∈ acc := by
  induction l with
  | nil => intro acc x hx; exact hx
  | cons b t ih =>
    intro acc x hx
    simp only [List.foldl_cons] at hx
    have := ih _ x hx
    match hpb : parentNode forest b with
    | none => rw [hpb] at this; exact this
    | some pb =>
      rw [hpb] at this
      exact List.mem_of_mem_filter this

theorem pairwise_foldl_erase (l : List CBlockIndex) (forest : List CBlockIndex) :
    ∀ acc : List CBlockIndex,
      acc.Pairwise (fun x y => setEquiv x y = false) →
      (l.foldl (fun s b =>
        match parentNode forest b with
        | none => s
        | some pb => setErase s pb) acc).Pairwise
          (fun x y => setEquiv x y = false) := by
  induction l with
  | nil => intro acc hp; exact hp
  | cons b t ih =>
    intro acc hp
    simp only [List.foldl_cons]
    refine ih _ ?_
    match hpb : parentNode forest b with
    | none => exact hp
    | some pb => exact pairwise_setErase acc pb hp

theorem count_le_one_of_pairwise (s : List CBlockIndex)
    (hp : s.Pairwise (fun x y => setEquiv x y = false)) (x : CBlockIndex) :
    s.count x ≤ 1 := by
  by_contra h
  push_neg at h
  have hdup : List.Duplicate x s := List.duplicate_iff_two_le_count.mpr h
  have hsub : List.Sublist [x, x] s := List.duplicate_iff_sublist.mp hdup
  have := (List.Pairwise.sublist hsub hp)
  rw [List.pairwise_cons] at this
  have := this.1 x (by simp)
  rw [setEquiv_refl x] at this
  cases this

/-- Claim C5: the tip set built by `getchaintips` contains the active tip
exactly once: it is present even when the active tip has children in the
index (the unconditional re-insert), and it is never duplicated (set
insertion is a no-op when an equivalent element is present). -/
theorem C5_getchaintips_active_tip_once (forest : List CBlockIndex)
    (activeTip : CBlockIndex)
    (hid : ∀ x ∈ forest, x.id = activeTip.id → x = activeTip) :
    (getchaintipsSetTips forest activeTip).count activeTip = 1 := by
  have hgoal : getchaintipsSetTips forest activeTip =
      setInsert (forest.foldl (fun s b =>
        match parentNode forest b with
        | none => s
        | some pb => setErase s pb) (forest.foldl setInsert [])) activeTip := rfl
  rw [hgoal]
  set s1 : List CBlockIndex := forest.foldl setInsert [] with hs1
  set s2 : List CBlockIndex := forest.foldl (fun s b =>
    match parentNode forest b with
    | none => s
    | some pb => setErase s pb) s1 with hs2
  have hp1 : s1.Pairwise (fun x y => setEquiv x y = false) :=
    pairwise_foldl_setInsert forest [] (by simp)
  have hp2 : s2.Pairwise (fun x y => setEquiv x y = false) :=
    pairwise_foldl_erase forest forest s1 hp1
  have hmem2 : ∀ x ∈ s2, x ∈ forest := by
    intro x hx
    rw [hs2] at hx
    have := mem_foldl_erase forest forest s1 x hx
    rw [hs1] at this
    rcases mem_foldl_setInsert forest [] x this with h | h
    · simp at h
    · exact h
  by_cases hany : s2.any (fun x => setEquiv x activeTip)
  · rw [setInsert, if_pos hany]
    rw [List.any_eq_true] at hany
    obtain ⟨x, hx, hxe⟩ := hany
    have hxid : x.id = activeTip.id :=
      ((setEquiv_iff x activeTip).mp hxe).2
    have hxat : x = activeTip := hid x (hmem2 x hx) hxid
    rw [hxat] at hx
    have hle := count_le_one_of_pairwise s2 hp2 activeTip
    have hpos : 0 < s2.count activeTip := List.count_pos_iff.mpr hx
    omega
  · have hnotmem : activeTip ∉ s2 := by
      intro hmem
      apply hany
      rw [List.any_eq_true]
      exact ⟨activeTip, hmem, setEquiv_refl activeTip⟩
    rw [setInsert_count_self s2 activeTip (by simpa using hany)]
    rw [List.count_eq_zero.mpr hnotmem]

/-- Witness for C5 with the active tip set to node 11, which has two
children (12 and 20) in the index and is therefore erased as a parent and
re-inserted: it is still reported exactly once. -/
theorem C5_getchaintips_active_tip_once_witness :
    (getchaintipsSetTips wForest ⟨11, some 10, 1, false, 2, true, true⟩).count
      ⟨11, some 10, 1, false, 2, true, true⟩ = 1 :=
  C5_getchaintips_active_tip_once wForest ⟨11, some 10, 1, false, 2, true, true⟩
    (by decide)

/-! ## Range aggregator -/

/-- A transaction input (`CTxIn`): previous outpoint, sequence field, and
the externally-decided zerocoin-spend classifications
(`IsZerocoinSpend` / `IsZerocoinPublicSpend`). -/
structure CTxIn where
  prevoutHash : Nat
  prevoutN : Nat
  nSequence : Int
  isZerocoinSpend : Bool
  isZerocoinPublicSpend : Bool
deriving DecidableEq

/-- A transaction output (`CTxOut`): amount and the externally-decided
zerocoin-mint classification (`IsZerocoinMint`). -/
structure CTxOut where
  nValue : Int
  isZerocoinMint : Bool
deriving DecidableEq

/-- A transaction (`CTransaction`): inputs, outputs, the externally-decided
coinbase/coinstake classifications, and its serialized size
(`GetSerializeSize`, an external serialization function). -/
structure CTransaction where
  vin : List CTxIn
  vout : List CTxOut
  isCoinBase : Bool
  isCoinStake : Bool
  size : Int
deriving DecidableEq

/-- `CTransaction::HasZerocoinSpendInputs`: some input is a (public or
private) zerocoin spend. -/
def hasZerocoinSpendInputs (tx : CTransaction) : Bool :=
  tx.vin.any (fun i => i.isZerocoinSpend || i.isZerocoinPublicSpend)

/-- `CTransaction::HasZerocoinMintOutputs`: some output is a zerocoin
mint. -/
def hasZerocoinMintOutputs (tx : CTransaction) : Bool :=
  tx.vout.any (fun o => o.isZerocoinMint)

/-- A block: its transaction list. -/
structure CBlock where
  vtx : List CTransaction
deriving DecidableEq

/-- `CBlock::IsProofOfStake` (external block code): more than one
transaction and the second one is a coinstake. -/
def blockIsProofOfStake (b : CBlock) : Bool :=
  decide (b.vtx.length > 1) &&
    ((b.vtx[1]?).map (fun tx => tx.isCoinStake)).getD false

/-- The zerocoin denomination list (`libzerocoin::zerocoinDenomList`). -/
def zerocoinDenomList : List Int := [1, 5, 10, 50, 100, 500, 1000, 5000]

/-- Modelled from the spec: `libzerocoin::IntToZerocoinDenomination`, which
maps any value outside the denomination list to the error denomination
(represented as 0); the function itself is external library code. -/
def intToZerocoinDenomination (n : Int) : Int :=
  if n ∈ zerocoinDenomList then n else 0

/-- Bump a denomination counter map, inserting the key if absent
(`std::map::operator[]` followed by `++`). -/
def bumpDenom (m : List (Int × Int)) (d : Int) : List (Int × Int) :=
  if m.any (fun p => p.1 == d) then
    m.map (fun p => if p.1 == d then (p.1, p.2 + 1) else p)
  else m ++ [(d, 1)]

/-- The denomination counter maps initialised to zero for every
denomination (blockchain.cpp:1469-1472). -/
def initDenomMap : List (Int × Int) := zerocoinDenomList.map (fun d => (d, 0))

/-- Accumulator state of `getblockindexstats` (blockchain.cpp:1461-1472). -/
structure AggState where
  nFees : Int
  nFeesAll : Int
  nBytes : Int
  nTxCount : Int
  nTxCountAll : Int
  mapSpendCount : List (Int × Int)
  mapPublicSpendCount : List (Int × Int)
deriving DecidableEq

/-- The initial accumulator state. -/
def initAggState : AggState := ⟨0, 0, 0, 0, 0, initDenomMap, initDenomMap⟩

/-- Typed failures of the request layer, one per throw site. -/
inductive RpcErr where
  | invalidStartingBlock
  | invalidBlockRange
  | invalidEndingBlock
  | invalidBlockHeight
  | dbFailedReadBlock
  | dbFailedReadTx
  | invalidStartHeight
deriving DecidableEq

/-- Chain-state environment of the aggregator: the active chain's blocks by
height, and the previous-output resolver (`GetTransaction` plus the output
lookup, external storage code — the spec's `prevOutputResolver`). -/
structure Env where
  blocks : List CBlock
  getPrevOut : Nat → Nat → Option Int

/-- `chainActive.Height()`: the height of the chain tip. -/
def Env.bestHeight (e : Env) : Int := (e.blocks.length : Int) - 1

/-- `chainActive[h]`: the block at height `h`, none when out of range. -/
def chainGet (e : Env) (h : Int) : Option CBlock :=
  if 0 ≤ h ∧ h < (e.blocks.length : Int) then e.blocks[h.toNat]? else none

/-- The two height parameters of `validaterange`. -/
structure RangeParams where
  heightStart : Int
  range : Int
deriving DecidableEq

/-- `validaterange` (blockchain.cpp:1260-1291): bounds-check the start
height, require a strictly positive range, raise the start to
`minHeightStart` when the interval reaches it, and bounds-check the end
height. -/
def validaterange (nBestHeight minHeightStart : Int) (p : RangeParams) :
    Except RpcErr (Int × Int) :=
  let heightStart := p.heightStart
  if heightStart > nBestHeight then Except.error RpcErr.invalidStartingBlock
  else
    let range := p.range
    if range < 1 then Except.error RpcErr.invalidBlockRange
    else
      let heightEnd := heightStart + range - 1
      let heightStart :=
        if heightStart < minHeightStart ∧ heightEnd ≥ minHeightStart then
          minHeightStart
        else heightStart
      if heightEnd > nBestHeight then Except.error RpcErr.invalidEndingBlock
      else Except.ok (heightStart, heightEnd)

/-- Input-loop body of `getblockindexstats` (blockchain.cpp:1502-1520):
count zerocoin spends, otherwise resolve the previous output and add its
value to the block-scoped input total. -/
def processInput (env : Env) (fFeeOnly : Bool)
    (acc : AggState × Int) (txin : CTxIn) : Except RpcErr (AggState × Int) :=
  let st := acc.1
  let vIn := acc.2
  if txin.isZerocoinSpend then
    Except.ok
      (if !fFeeOnly then
        { st with mapSpendCount :=
            bumpDenom st.mapSpendCount (intToZerocoinDenomination txin.nSequence) }
      else st, vIn)
  else if txin.isZerocoinPublicSpend then
    Except.ok
      (if !fFeeOnly then
        { st with mapPublicSpendCount := bumpDenom st.mapPublicSpendCount (intToZerocoinDenomination txin.nSequence) }
      else st, vIn)
  else
    match env.getPrevOut txin.prevoutHash txin.prevoutN with
    | none => Except.error RpcErr.dbFailedReadTx
    | some v => Except.ok (st, vIn + v)

/-- Transaction-loop body of `getblockindexstats` (blockchain.cpp:1496-1537).
The input and output value totals `vIn`/`vOut` are the block-scoped
accumulators declared at blockchain.cpp:1489-1490; they are carried across
the transactions of one block exactly as in the source. -/
def processTx (env : Env) (fFeeOnly : Bool)
    (acc : AggState × Int × Int) (tx : CTransaction) :
    Except RpcErr (AggState × Int × Int) :=
  let st := acc.1
  let vIn := acc.2.1
  let vOut := acc.2.2
  if tx.isCoinBase || (tx.isCoinStake && !(hasZerocoinSpendInputs tx)) then
    Except.ok acc
  else
    match tx.vin.foldlM (processInput env fFeeOnly) (st, vIn) with
    | Except.error e => Except.error e
    | Except.ok p =>
      if hasZerocoinSpendInputs tx then Except.ok (p.1, p.2, vOut)
      else
        let vOut2 := vOut + (tx.vout.map (fun o => o.nValue)).sum
        let st2 := { p.1 with nFeesAll := p.1.nFeesAll + (p.2 - vOut2) }
        let st3 :=
          if !(hasZerocoinMintOutputs tx) then
            { st2 with nFees := st2.nFees + (p.2 - vOut2), nBytes := st2.nBytes + tx.size }
          else st2
        Except.ok (st3, p.2, vOut2)

/-- Per-block body of `getblockindexstats` (blockchain.cpp:1489-1537):
reset the block-scoped value totals, update the transaction counters, then
fold the transaction loop. -/
def processBlock (env : Env) (fFeeOnly : Bool) (st : AggState) (b : CBlock) :
    Except RpcErr AggState :=
  let ntx : Int := b.vtx.length
  let st1 := { st with
    nTxCountAll := st.nTxCountAll + ntx,
    nTxCount := if blockIsProofOfStake b then st.nTxCount + ntx - 2
                else st.nTxCount + ntx - 1 }
  match b.vtx.foldlM (processTx env fFeeOnly) (st1, 0, 0) with
  | Except.error e => Except.error e
  | Except.ok p => Except.ok p.1

/-- The heights `[s, s+1, ..., e]` visited by the block loop. -/
def blockRange (s e : Int) : List Int :=
  (List.range (e - s + 1).toNat).map (fun i => s + (i : Int))

/-- The block loop (blockchain.cpp:1483-1545), also returning the trace of
heights for which `ReadBlockFromDisk` was invoked. -/
def runBlocks (env : Env) (fFeeOnly : Bool) :
    List Int → AggState → (Except RpcErr AggState) × List Int
  | [], st => (Except.ok st, [])
  | h :: t, st =>
    match chainGet env h with
    | none => (Except.error RpcErr.dbFailedReadBlock, [h])
    | some b =>
      match processBlock env fFeeOnly st b with
      | Except.error e => (Except.error e, [h])
      | Except.ok st2 =>
        let r := runBlocks env fFeeOnly t st2
        (r.1, h :: r.2)

/-- The structured result of `getblockindexstats`. -/
structure IndexStatsResult where
  heightStart : Int
  heightEnd : Int
  state : AggState
  fFeeOnly : Bool
deriving DecidableEq

/-- `getblockindexstats` (blockchain.cpp:1411-1571): validate the range
(with `minHeightStart = 1`), null-check the starting block index, then run
the block loop.  The second component is the trace of block-read
heights. -/
def getblockindexstats (env : Env) (heightStartP rangeP : Int)
    (fFeeOnly : Bool) : (Except RpcErr IndexStatsResult) × List Int :=
  match validaterange env.bestHeight 1 ⟨heightStartP, rangeP⟩ with
  | Except.error e => (Except.error e, [])
  | Except.ok p =>
    match chainGet env p.1 with
    | none => (Except.error RpcErr.invalidBlockHeight, [])
    | some _ =>
      let r := runBlocks env fFeeOnly (blockRange p.1 p.2) initAggState
      match r.1 with
      | Except.error e => (Except.error e, r.2)
      | Except.ok st => (Except.ok ⟨p.1, p.2, st, fFeeOnly⟩, r.2)

/-- `getfeeinfo` (blockchain.cpp:1573-1613): guard the block count, then
delegate to `getblockindexstats` with start `best − n`, range `n` and
fee-only output. -/
def getfeeinfo (env : Env) (nBlocks : Int) :
    (Except RpcErr IndexStatsResult) × List Int :=
  let nBestHeight := env.bestHeight
  let nStartHeight := nBestHeight - nBlocks
  if nBlocks < 0 ∨ nStartHeight ≤ 0 then
    (Except.error RpcErr.invalidStartHeight, [])
  else getblockindexstats env nStartHeight nBlocks true

theorem validaterange_start_oob (nBest minH : Int) (p : RangeParams)
    (h : p.heightStart > nBest) :
    validaterange nBest minH p = Except.error RpcErr.invalidStartingBlock := by
  simp only [validaterange]
  rw [if_pos h]

theorem validaterange_bad_range (nBest minH : Int) (p : RangeParams)
    (h1 : ¬ p.heightStart > nBest) (h2 : p.range < 1) :
    validaterange nBest minH p = Except.error RpcErr.invalidBlockRange := by
  simp only [validaterange]
  rw [if_neg h1, if_pos h2]

theorem getblockindexstats_validation_error (env : Env) (hs r : Int)
    (fo : Bool) (e : RpcErr)
    (hv : validaterange env.bestHeight 1 ⟨hs, r⟩ = Except.error e) :
    getblockindexstats env hs r fo = (Except.error e, []) := by
  unfold getblockindexstats
  rw [hv]

/-- Claim C4 (amended): a call with a non-positive range is rejected before
any block is read — the read trace is empty — and the error is the
invalid-range error whenever the start height is within the chain;
when the start height is also beyond the tip, the start-height bounds check
fires first and the call fails with the invalid-starting-block error
instead. -/
theorem C4_nonpositive_range_rejected_before_io (env : Env) (hs r : Int)
    (fo : Bool) (hr : r < 1) :
    (getblockindexstats env hs r fo).2 = [] ∧
    (hs ≤ env.bestHeight →
      (getblockindexstats env hs r fo).1 =
        Except.error RpcErr.invalidBlockRange) ∧
    (hs > env.bestHeight →
      (getblockindexstats env hs r fo).1 =
        Except.error RpcErr.invalidStartingBlock) := by
  by_cases h : hs > env.bestHeight
  · rw [getblockindexstats_validation_error env hs r fo _
      (validaterange_start_oob env.bestHeight 1 ⟨hs, r⟩ h)]
    exact ⟨rfl, fun hle => absurd h (by omega), fun _ => rfl⟩
  · rw [getblockindexstats_validation_error env hs r fo _
      (validaterange_bad_range env.bestHeight 1 ⟨hs, r⟩ h hr)]
    exact ⟨rfl, fun _ => rfl, fun hgt => absurd hgt h⟩

/-- A chain with a single (genesis) block, used by counterexamples. -/
def wEnvOne : Env := ⟨[⟨[]⟩], fun _ _ => none⟩

/-- Counterexample to C4 as stated: the call with start height 5 and range 0
(a non-positive range) on a chain with best height 0 fails with the
invalid-starting-block error, not the invalid-range error (the start bounds
check at blockchain.cpp:1273 runs before the range check at 1278). -/
theorem C4_counterexample :
    (getblockindexstats wEnvOne 5 0 false).1 =
      Except.error RpcErr.invalidStartingBlock ∧
    Except.error RpcErr.invalidStartingBlock ≠
      (Except.error RpcErr.invalidBlockRange :
        Except RpcErr IndexStatsResult) ∧
    (0 : Int) < 1 := by
  refine ⟨rfl, ?_, by norm_num⟩
  intro h
  have := Except.error.inj h
  cases this

/-- Witness for C4 (amended) at start height 0, range 0 on the one-block
chain. -/
theorem C4_nonpositive_range_rejected_before_io_witness :
    (getblockindexstats wEnvOne 0 0 false).2 = [] ∧
    ((0 : Int) ≤ wEnvOne.bestHeight →
      (getblockindexstats wEnvOne 0 0 false).1 =
        Except.error RpcErr.invalidBlockRange) ∧
    ((0 : Int) > wEnvOne.bestHeight →
      (getblockindexstats wEnvOne 0 0 false).1 =
        Except.error RpcErr.invalidStartingBlock) :=
  C4_nonpositive_range_rejected_before_io wEnvOne 0 0 false (by norm_num)

/-- Claim C9 (amended): when the range is positive, the start is within the
chain, the start lies below `minHeightStart` while the interval reaches it,
and additionally the interval's end does not exceed the best height
(otherwise the request is rejected with the invalid-ending-block error),
`validaterange` silently raises the effective start to `minHeightStart` and
succeeds, so the validated interval holds fewer blocks than the requested
range. -/
theorem C9_min_height_clamp (nBest minH s r : Int) (h1 : 1 ≤ r)
    (h2 : s ≤ nBest) (h3 : s < minH) (h4 : minH ≤ s + r - 1)
    (h5 : s + r - 1 ≤ nBest) :
    validaterange nBest minH ⟨s, r⟩ = Except.ok (minH, s + r - 1) ∧
    (s + r - 1) - minH + 1 < r := by
  refine ⟨?_, by omega⟩
  simp only [validaterange]
  rw [if_neg (by omega), if_neg (by omega), if_neg (show ¬s + r - 1 > nBest by omega),
    if_pos (show s < minH ∧ s + r - 1 ≥ minH from ⟨h3, h4⟩)]

/-- Counterexample to C9 as stated: with best height 1 and
`minHeightStart = 1`, the call (start 0, range 3) satisfies the claim's
hypotheses — range ≥ 1, start ≤ best, start < minHeightStart,
start+range−1 ≥ minHeightStart — yet the request is rejected
(invalid ending block), not silently clamped and served. -/
theorem C9_counterexample :
    validaterange 1 1 ⟨0, 3⟩ = Except.error RpcErr.invalidEndingBlock ∧
    (1 : Int) ≤ 3 ∧ (0 : Int) ≤ 1 ∧ (0 : Int) < 1 ∧
    (1 : Int) ≤ 0 + 3 - 1 :=
  ⟨rfl, by norm_num, by norm_num, by norm_num, by norm_num⟩

/-- Witness for C9 (amended), the claim's own example: start 0 with range 2
on a chain with best height 1 aggregates only height 1 — one block instead
of two. -/
theorem C9_min_height_clamp_witness :
    validaterange 1 1 ⟨0, 2⟩ = Except.ok (1, 0 + 2 - 1) ∧
    ((0 : Int) + 2 - 1) - 1 + 1 < 2 :=
  C9_min_height_clamp 1 1 0 2 (by norm_num) (by norm_num) (by norm_num)
    (by norm_num) (by norm_num)

/-- Claim C10: `getfeeinfo n` with `n ≥ 0` and `bestHeight − n > 0` is
exactly the range aggregator invoked with start `bestHeight − n`, range `n`
and fee-only output: the two computations are the same function on these
inputs. -/
theorem C10_getfeeinfo_delegates (env : Env) (n : Int) (h0 : 0 ≤ n)
    (h1 : 0 < env.bestHeight - n) :
    getfeeinfo env n = getblockindexstats env (env.bestHeight - n) n true := by
  simp only [getfeeinfo]
  rw [if_neg]
  push_neg
  constructor <;> omega

/-- A chain with two empty blocks, best height 1. -/
def wEnvTwo : Env := ⟨[⟨[]⟩, ⟨[]⟩], fun _ _ => none⟩

/-- Witness for C10 at `n = 0` on the two-block chain. -/
theorem C10_getfeeinfo_delegates_witness :
    getfeeinfo wEnvTwo 0 =
      getblockindexstats wEnvTwo (wEnvTwo.bestHeight - 0) 0 true :=
  C10_getfeeinfo_delegates wEnvTwo 0 (by norm_num)
    (by norm_num [Env.bestHeight, wEnvTwo])

/-- Claim C7: aggregating the single-height range `[1, 1]` over one
proof-of-stake block whose only transactions are one coinbase and one plain
coinstake yields txcount 0, txcount_all 2, and zero fee totals (both
`ttlfee` and `ttlfee_all`). -/
theorem C7_single_pos_block_counts (b0 : CBlock) (cb cs : CTransaction)
    (res : Nat → Nat → Option Int) (fo : Bool)
    (hcb : cb.isCoinBase = true) (hcs : cs.isCoinStake = true)
    (hzc : hasZerocoinSpendInputs cs = false) :
    (getblockindexstats ⟨[b0, ⟨[cb, cs]⟩], res⟩ 1 1 fo).1 =
      Except.ok ⟨1, 1, ⟨0, 0, 0, 0, 2, initDenomMap, initDenomMap⟩, fo⟩ := by
  obtain ⟨cbVin, cbVout, cbCB, cbCS, cbSz⟩ := cb
  obtain ⟨csVin, csVout, csCB, csCS, csSz⟩ := cs
  simp only at hcb hcs
  subst hcb
  subst hcs
  simp [getblockindexstats, validaterange, Env.bestHeight, chainGet,
    blockRange, runBlocks, processBlock, processTx, blockIsProofOfStake,
    hzc, initAggState]
  rfl

/-- Witness for C7 with a concrete coinbase and coinstake. -/
theorem C7_single_pos_block_counts_witness :
    (getblockindexstats ⟨[⟨[]⟩, ⟨[⟨[], [], true, false, 100⟩,
        ⟨[⟨0, 0, 0, false, false⟩], [⟨50, false⟩, ⟨60, false⟩],
          false, true, 200⟩]⟩], fun _ _ => none⟩ 1 1 false).1 =
      Except.ok ⟨1, 1, ⟨0, 0, 0, 0, 2, initDenomMap, initDenomMap⟩, false⟩ :=
  C7_single_pos_block_counts ⟨[]⟩ ⟨[], [], true, false, 100⟩
    ⟨[⟨0, 0, 0, false, false⟩], [⟨50, false⟩, ⟨60, false⟩], false, true, 200⟩
    (fun _ _ => none) false rfl rfl rfl

/-- The fee contribution the specification asserts for an ordinary
transaction: the sum of its resolved input values minus the sum of its
output values. -/
def specTxFee (resolver : Nat → Nat → Option Int) (tx : CTransaction) : Int :=
  (tx.vin.map (fun i => (resolver i.prevoutHash i.prevoutN).getD 0)).sum -
    (tx.vout.map (fun o => o.nValue)).sum

/-- An ordinary transaction with one resolved 5-value input and a 3-value
output: fee 2. -/
def wTxA : CTransaction :=
  ⟨[⟨100, 0, 0, false, false⟩], [⟨3, false⟩], false, false, 10⟩

/-- The claim's example transaction: resolved inputs of value 5 and 3 and
one output of value 7: fee 1. -/
def wTxB : CTransaction :=
  ⟨[⟨101, 0, 0, false, false⟩, ⟨102, 0, 0, false, false⟩], [⟨7, false⟩],
    false, false, 20⟩

/-- The previous-output resolver of the fee examples. -/
def wResolver : Nat → Nat → Option Int := fun h _ =>
  if h = 100 then some 5
  else if h = 101 then some 5
  else if h = 102 then some 3
  else none

/-- A chain whose block at height 1 holds a coinbase and both example
transactions. -/
def wEnvC2 : Env :=
  ⟨[⟨[]⟩, ⟨[⟨[], [], true, false, 100⟩, wTxA, wTxB]⟩], wResolver⟩

/-- A chain whose block at height 1 holds a coinbase and only the claim's
example transaction. -/
def wEnvC2b : Env :=
  ⟨[⟨[]⟩, ⟨[⟨[], [], true, false, 100⟩, wTxB]⟩], wResolver⟩

/-- Claim C2 evaluated on the code: alone in a block, the claim's example
transaction (inputs 5 and 3, output 7) contributes fee 1; but preceded in
the same block by an ordinary fee-2 transaction, the aggregator's totals
come out as 5 instead of the per-transaction sum 2 + 1 = 3, so the example
transaction's contribution becomes 3.  The block-scoped accumulators
`nValueIn`/`nValueOut` (blockchain.cpp:1489-1490) are never reset between
transactions, so every transaction re-adds the running input-minus-output
difference of all preceding ones — contradicting the code's own result
documentation ("ttlfee: Sum of the fee amount of all txes"). -/
theorem C2_block_scoped_fee_accumulation_bug :
    ((getblockindexstats wEnvC2b 1 1 true).1.map
        (fun r => r.state.nFeesAll)) = Except.ok 1 ∧
    ((getblockindexstats wEnvC2 1 1 true).1.map
        (fun r => (r.state.nFees, r.state.nFeesAll))) = Except.ok (5, 5) ∧
    specTxFee wResolver wTxA + specTxFee wResolver wTxB = 3 ∧
    (5 : Int) ≠ 3 :=
  ⟨rfl, rfl, rfl, by norm_num⟩

/-! ## Tip-wait logic -/

/-- The process-wide tip snapshot (`CUpdatedBlock`). -/
structure CUpdatedBlock where
  hash : Nat
  height : Int
deriving DecidableEq

/-- The wake predicate of `waitforblockheight` (blockchain.cpp:339-341):
the stored tip height has reached the target, or the RPC server is shutting
down (`!IsRPCRunning()`). -/
def waitHeightPred (height : Int) (rpcRunning : Bool)
    (latest : CUpdatedBlock) : Bool :=
  decide (latest.height ≥ height) || !rpcRunning

/-- Modelled from the spec: the waiting loop of the condition-variable wait.
`std::condition_variable::wait`/`wait_for` re-check the predicate at every
notification; each element of the list is the snapshot installed by one
`RPCNotifyBlockChange` call during the wait.  When no notification is left,
a nonzero timeout elapses and the wait ends on the current snapshot;
with timeout 0 the call remains blocked (`none`). -/
def waitLoop (height timeout : Int) (rpcRunning : Bool) :
    CUpdatedBlock → List CUpdatedBlock → Option CUpdatedBlock
  | cur, [] => if timeout ≠ 0 then some cur else none
  | _, u :: us =>
    if waitHeightPred height rpcRunning u then some u
    else waitLoop height timeout rpcRunning u us

/-- `waitforblockheight` (blockchain.cpp:305-348): the wait checks its
predicate against the current snapshot before blocking and returns
`latestblock` as observed at wake time. -/
def waitforblockheight (height timeout : Int) (rpcRunning : Bool)
    (init : CUpdatedBlock) (updates : List CUpdatedBlock) :
    Option CUpdatedBlock :=
  if waitHeightPred height rpcRunning init then some init
  else waitLoop height timeout rpcRunning init updates

/-- Claim C8: a wait-for-height call returns immediately with the current
snapshot when the stored tip height already reaches the target — for any
timeout, including 0 meaning no timeout, and regardless of later
notifications; and when a nonzero timeout elapses with no tip change, the
call returns the unchanged snapshot rather than blocking forever or
failing. -/
theorem C8_waitforblockheight_immediate_and_timeout :
    (∀ (h t : Int) (init : CUpdatedBlock) (updates : List CUpdatedBlock),
        init.height ≥ h →
        waitforblockheight h t true init updates = some init) ∧
    (∀ (h t : Int) (init : CUpdatedBlock), t ≠ 0 →
        waitforblockheight h t true init [] = some init) := by
  constructor
  · intro h t init updates hge
    unfold waitforblockheight
    rw [if_pos]
    simp [waitHeightPred, hge]
  · intro h t init hne
    unfold waitforblockheight
    by_cases hp : waitHeightPred h true init
    · rw [if_pos hp]
    · rw [if_neg hp]
      unfold waitLoop
      rw [if_pos hne]

/-- Witness for C8: height target 5 against a tip at height 7 (immediate),
and a tip at height 7 with target 9 and timeout 100 (timeout path). -/
theorem C8_waitforblockheight_immediate_and_timeout_witness :
    waitforblockheight 5 0 true ⟨77, 7⟩ [⟨78, 8⟩] = some ⟨77, 7⟩ ∧
    waitforblockheight 9 100 true ⟨77, 7⟩ [] = some ⟨77, 7⟩ :=
  ⟨C8_waitforblockheight_immediate_and_timeout.1 5 0 ⟨77, 7⟩ [⟨78, 8⟩]
      (by norm_num),
    C8_waitforblockheight_immediate_and_timeout.2 9 100 ⟨77, 7⟩ (by norm_num)⟩
